import Mathlib

/-!
Verification of the Betting Value Analysis Engine of the `mvp` repository.

JavaScript numbers are modelled as exact rationals (`ℚ`); every definition
below is a direct translation of a function in
`src/frontend/src/utils/oddsUtils.js`,
`src/frontend/src/services/oddsService.js`,
`src/frontend/src/services/simulationService.js` or
`src/frontend/src/services/gameService.js`.
IEEE special values (`Infinity`, `NaN`) are modelled separately by the
`JsNum` type, used where division by zero matters.  A thrown exception is
modelled by `Except.error` carrying the thrown message.
-/

deriving instance DecidableEq for Except

/-- `oddsUtils.js`, `americanToImpliedProbability`:
`if (americanOdds > 0) return 100 / (americanOdds + 100);
 else return Math.abs(americanOdds) / (Math.abs(americanOdds) + 100);` -/
def americanToImpliedProbability (americanOdds : ℚ) : ℚ :=
  if 0 < americanOdds then 100 / (americanOdds + 100)
  else |americanOdds| / (|americanOdds| + 100)

/-- `oddsService.js`, `oddsToProb` (private helper with the same body as
`americanToImpliedProbability`). -/
def oddsToProb (americanOdds : ℚ) : ℚ :=
  if 0 < americanOdds then 100 / (americanOdds + 100)
  else |americanOdds| / (|americanOdds| + 100)

/-- `simulationService.js`, `_oddsToProb` (private method, again the same
body). -/
def simOddsToProb (americanOdds : ℚ) : ℚ :=
  if 0 < americanOdds then 100 / (americanOdds + 100)
  else |americanOdds| / (|americanOdds| + 100)

/-- JavaScript `Math.round`: round half toward positive infinity,
`Math.round(x) = floor(x + 0.5)`. -/
def jsRound (q : ℚ) : ℤ := ⌊q + 1/2⌋

/-- The local `odds` value of `oddsUtils.js`, `impliedProbabilityToAmerican`
before rounding: the favorite price `-100 * p / (1 - p)` when `p > 0.5`,
the underdog price `100 * (1 - p) / p` otherwise. -/
def rawAmericanOdds (probability : ℚ) : ℚ :=
  if 0.5 < probability then -100 * probability / (1 - probability)
  else 100 * (1 - probability) / probability

/-- `oddsUtils.js`, `impliedProbabilityToAmerican`: throws when
`probability <= 0 || probability >= 1`; otherwise returns
`Math.round(odds / 5) * 5` for the raw price `odds`. -/
def impliedProbabilityToAmerican (probability : ℚ) : Except String ℚ :=
  if probability ≤ 0 ∨ 1 ≤ probability then
    Except.error "Probability must be between 0 and 1"
  else
    Except.ok ((5 * jsRound (rawAmericanOdds probability / 5) : ℤ) : ℚ)

/-- `oddsUtils.js`, `americanToDecimalOdds`:
`if (americanOdds > 0) return 1 + americanOdds / 100;
 else return 1 + 100 / Math.abs(americanOdds);` -/
def americanToDecimalOdds (americanOdds : ℚ) : ℚ :=
  if 0 < americanOdds then 1 + americanOdds / 100
  else 1 + 100 / |americanOdds|

/-- `oddsUtils.js`, `calculateKellyStake`: the Kelly formula
`(b*p - q) / b` with `b = americanToDecimalOdds(odds) - 1`, `q = 1 - p`,
floored at 0 by `Math.max(0, stake)`. -/
def calculateKellyStake (probability americanOdds : ℚ) : ℚ :=
  let decimalOdds := americanToDecimalOdds americanOdds
  let q := 1 - probability
  let b := decimalOdds - 1
  let stake := (b * probability - q) / b
  max 0 stake

/-- `oddsService.js`, `determineValueType`: the five-way edge
classification, first match wins. -/
def determineValueType (edge : ℚ) : String :=
  if 0.05 < edge then "strong_value"
  else if 0.02 < edge then "value"
  else if edge < -0.05 then "poor"
  else if edge < -0.02 then "below"
  else "fair"

/-- `simulationService.js`, `_getValueRating`: identical thresholds, this
call site uses different rating names. -/
def getValueRating (edge : ℚ) : String :=
  if 0.05 < edge then "strong"
  else if 0.02 < edge then "value"
  else if edge < -0.05 then "poor"
  else if edge < -0.02 then "negative"
  else "neutral"

lemma dvt_strong_iff (e : ℚ) : determineValueType e = "strong_value" ↔ 0.05 < e := by
  unfold determineValueType
  split_ifs with h1 h2 h3 h4 <;> simp_all <;> (try intros) <;> linarith

lemma dvt_value_iff (e : ℚ) : determineValueType e = "value" ↔ 0.02 < e ∧ e ≤ 0.05 := by
  unfold determineValueType
  split_ifs with h1 h2 h3 h4 <;> simp_all <;> (try intros) <;> linarith

lemma dvt_poor_iff (e : ℚ) : determineValueType e = "poor" ↔ e < -0.05 := by
  unfold determineValueType
  split_ifs with h1 h2 h3 h4 <;> simp_all <;> (try intros) <;> linarith

lemma dvt_below_iff (e : ℚ) : determineValueType e = "below" ↔ -0.05 ≤ e ∧ e < -0.02 := by
  unfold determineValueType
  split_ifs with h1 h2 h3 h4 <;> simp_all <;> (try intros) <;> linarith

lemma dvt_fair_iff (e : ℚ) : determineValueType e = "fair" ↔ -0.02 ≤ e ∧ e ≤ 0.02 := by
  unfold determineValueType
  split_ifs with h1 h2 h3 h4 <;> simp_all <;> (try intros) <;> linarith

lemma gvr_strong_iff (e : ℚ) : getValueRating e = "strong" ↔ 0.05 < e := by
  unfold getValueRating
  split_ifs with h1 h2 h3 h4 <;> simp_all <;> (try intros) <;> linarith

lemma gvr_value_iff (e : ℚ) : getValueRating e = "value" ↔ 0.02 < e ∧ e ≤ 0.05 := by
  unfold getValueRating
  split_ifs with h1 h2 h3 h4 <;> simp_all <;> (try intros) <;> linarith

lemma gvr_poor_iff (e : ℚ) : getValueRating e = "poor" ↔ e < -0.05 := by
  unfold getValueRating
  split_ifs with h1 h2 h3 h4 <;> simp_all <;> (try intros) <;> linarith

lemma gvr_negative_iff (e : ℚ) : getValueRating e = "negative" ↔ -0.05 ≤ e ∧ e < -0.02 := by
  unfold getValueRating
  split_ifs with h1 h2 h3 h4 <;> simp_all <;> (try intros) <;> linarith

lemma gvr_neutral_iff (e : ℚ) : getValueRating e = "neutral" ↔ -0.02 ≤ e ∧ e ≤ 0.02 := by
  unfold getValueRating
  split_ifs with h1 h2 h3 h4 <;> simp_all <;> (try intros) <;> linarith

/-- Claim C1: the edge classifier realises the five-bucket partition of the
line with the priority order of the source: `strong_value` on
`edge > 0.05`, `value` on `0.02 < edge ≤ 0.05`, `poor` on `edge < -0.05`,
`below` on `-0.05 ≤ edge < -0.02`, `fair` on `-0.02 ≤ edge ≤ 0.02`; the
buckets cover every rational with no gap and no overlap, the boundaries
`0.02` and `-0.02` are exclusive and resolve to `fair`, and the
`simulationService.js` copy applies the same thresholds under its own
rating names. -/
theorem determineValueType_partition : ∀ e : ℚ,
    (determineValueType e = "strong_value" ↔ 0.05 < e) ∧
    (determineValueType e = "value" ↔ 0.02 < e ∧ e ≤ 0.05) ∧
    (determineValueType e = "poor" ↔ e < -0.05) ∧
    (determineValueType e = "below" ↔ -0.05 ≤ e ∧ e < -0.02) ∧
    (determineValueType e = "fair" ↔ -0.02 ≤ e ∧ e ≤ 0.02) ∧
    determineValueType 0.02 = "fair" ∧
    determineValueType (-0.02) = "fair" ∧
    (getValueRating e = "strong" ↔ 0.05 < e) ∧
    (getValueRating e = "value" ↔ 0.02 < e ∧ e ≤ 0.05) ∧
    (getValueRating e = "poor" ↔ e < -0.05) ∧
    (getValueRating e = "negative" ↔ -0.05 ≤ e ∧ e < -0.02) ∧
    (getValueRating e = "neutral" ↔ -0.02 ≤ e ∧ e ≤ 0.02) := by
  intro e
  refine ⟨dvt_strong_iff e, dvt_value_iff e, dvt_poor_iff e, dvt_below_iff e,
    dvt_fair_iff e, ?_, ?_, gvr_strong_iff e, gvr_value_iff e, gvr_poor_iff e,
    gvr_negative_iff e, gvr_neutral_iff e⟩ <;> norm_num [determineValueType]

/-- Claim C2 counterexample: at American odds 0 the conversion does not
fail; it takes the non-positive branch and returns the number
`|0| / (|0| + 100) = 0`. -/
theorem americanToImpliedProbability_zero : americanToImpliedProbability 0 = 0 := by
  norm_num [americanToImpliedProbability]

/-- Claim C2 (amended): the positive and negative branches follow the
claimed formulas, but `odds == 0` is not rejected: the function returns 0
through the non-positive branch instead of failing. -/
theorem americanToImpliedProbability_spec : ∀ o : ℚ,
    (0 < o → americanToImpliedProbability o = 100 / (o + 100)) ∧
    (o < 0 → americanToImpliedProbability o = |o| / (|o| + 100)) ∧
    americanToImpliedProbability 0 = 0 := by
  intro o
  refine ⟨fun h => ?_, fun h => ?_, by norm_num [americanToImpliedProbability]⟩
  · simp only [americanToImpliedProbability]
    rw [if_pos h]
  · simp only [americanToImpliedProbability]
    rw [if_neg (by linarith)]

/-- Claim C2 witness: both branch formulas at concrete inputs. -/
theorem americanToImpliedProbability_spec_witness :
    americanToImpliedProbability 130 = 100 / (130 + 100) ∧
    americanToImpliedProbability (-150) = |(-150 : ℚ)| / (|(-150 : ℚ)| + 100) :=
  ⟨(americanToImpliedProbability_spec 130).1 (by norm_num),
   (americanToImpliedProbability_spec (-150)).2.1 (by norm_num)⟩

lemma americanToDecimalOdds_sub_one_pos {o : ℚ} (ho : o ≠ 0) :
    0 < americanToDecimalOdds o - 1 := by
  rcases lt_or_gt_of_ne ho with h | h
  · rw [americanToDecimalOdds, if_neg (by linarith)]
    have habs : 0 < |o| := abs_pos.mpr ho
    have : 0 < (100 : ℚ) / |o| := div_pos (by norm_num) habs
    linarith
  · rw [americanToDecimalOdds, if_pos h]
    have : 0 < o / 100 := div_pos h (by norm_num)
    linarith

/-- Claim C5: for every probability strictly between 0 and 1 and every
American odds of magnitude at least 100, the stake is exactly
`max(0, (b*p - (1-p)) / b)` with `b = americanToDecimal(odds) - 1`, hence
never negative; and the fair coin at even money gets stake 0. -/
theorem calculateKellyStake_spec :
    (∀ p o : ℚ, 0 < p → p < 1 → 100 ≤ |o| →
      calculateKellyStake p o =
        max 0 (((americanToDecimalOdds o - 1) * p - (1 - p)) /
          (americanToDecimalOdds o - 1)) ∧
      0 ≤ calculateKellyStake p o) ∧
    calculateKellyStake 0.5 100 = 0 := by
  constructor
  · intro p o _ _ _
    exact ⟨rfl, le_max_left 0 _⟩
  · norm_num [calculateKellyStake, americanToDecimalOdds]

/-- Claim C5 witness: the breakeven example `kellyStake(0.6, -150)` from the
spec, a nonnegative stake. -/
theorem calculateKellyStake_spec_witness :
    calculateKellyStake 0.6 (-150) =
      max 0 (((americanToDecimalOdds (-150) - 1) * 0.6 - (1 - 0.6)) /
        (americanToDecimalOdds (-150) - 1)) ∧
    0 ≤ calculateKellyStake 0.6 (-150) :=
  calculateKellyStake_spec.1 0.6 (-150) (by norm_num) (by norm_num) (by norm_num)

/-- Claim C7 counterexample: the degenerate probability 2 is not rejected:
`calculateKellyStake(2, 100)` evaluates the Kelly formula and returns the
number 3 instead of failing. -/
theorem calculateKellyStake_no_check : calculateKellyStake 2 100 = 3 := by
  norm_num [calculateKellyStake, americanToDecimalOdds]

/-- Claim C7 (amended): `calculateKellyStake` performs no input check at
all: on a degenerate probability it still evaluates the formula, returning
0 for every probability ≤ 0 (the negative recommendation is floored) and a
stake of at least 1 for every probability ≥ 1 — never an error. -/
theorem calculateKellyStake_no_validation : ∀ p o : ℚ, 100 ≤ |o| →
    (p ≤ 0 → calculateKellyStake p o = 0) ∧
    (1 ≤ p → 1 ≤ calculateKellyStake p o) := by
  intro p o ho
  have ho0 : o ≠ 0 := by
    intro h
    rw [h] at ho
    norm_num at ho
  have hb := americanToDecimalOdds_sub_one_pos ho0
  set b := americanToDecimalOdds o - 1 with hbdef
  have hks : calculateKellyStake p o = max 0 ((b * p - (1 - p)) / b) := rfl
  constructor
  · intro hp
    have hnum : b * p - (1 - p) < 0 := by nlinarith
    have hst : (b * p - (1 - p)) / b < 0 := div_neg_of_neg_of_pos hnum hb
    rw [hks]
    exact max_eq_left hst.le
  · intro hp
    have h1 : 1 ≤ (b * p - (1 - p)) / b := by
      rw [le_div_iff hb]
      nlinarith
    rw [hks]
    exact h1.trans (le_max_right 0 _)

/-- Claim C7 witness: no error and a numeric result on both degenerate
sides. -/
theorem calculateKellyStake_no_validation_witness :
    calculateKellyStake 0 100 = 0 ∧ 1 ≤ calculateKellyStake 2 100 :=
  ⟨(calculateKellyStake_no_validation 0 100 (by norm_num)).1 le_rfl,
   (calculateKellyStake_no_validation 2 100 (by norm_num)).2 (by norm_num)⟩

lemma round5_abs_le (x : ℚ) : |((5 * jsRound (x / 5) : ℤ) : ℚ) - x| ≤ 5 / 2 := by
  have h1 : ((jsRound (x / 5) : ℤ) : ℚ) ≤ x / 5 + 1 / 2 := Int.floor_le _
  have h2 : x / 5 + 1 / 2 < (jsRound (x / 5) : ℤ) + 1 := Int.lt_floor_add_one _
  rw [abs_le]
  push_cast
  constructor <;> linarith

lemma impliedProbabilityToAmerican_ok {p : ℚ} (h0 : 0 < p) (h1 : p < 1) :
    impliedProbabilityToAmerican p =
      Except.ok ((5 * jsRound (rawAmericanOdds p / 5) : ℤ) : ℚ) := by
  unfold impliedProbabilityToAmerican
  rw [if_neg]
  push_neg
  exact ⟨h0, h1⟩

lemma rawAmericanOdds_le_neg {p : ℚ} (hp : 0.5 < p) (h1 : p < 1) :
    rawAmericanOdds p < -100 := by
  rw [rawAmericanOdds, if_pos hp]
  have hd : 0 < 1 - p := by linarith
  rw [div_lt_iff₀ hd]
  linarith

lemma rawAmericanOdds_ge {p : ℚ} (h0 : 0 < p) (hp : p ≤ 0.5) :
    100 ≤ rawAmericanOdds p := by
  rw [rawAmericanOdds, if_neg (not_lt.mpr hp)]
  rw [le_div_iff₀ h0]
  linarith

lemma jsRound_raw_le {p : ℚ} (hp : 0.5 < p) (h1 : p < 1) :
    jsRound (rawAmericanOdds p / 5) ≤ -20 := by
  have hraw := rawAmericanOdds_le_neg hp h1
  have h5 : rawAmericanOdds p / 5 < -20 := by
    rw [div_lt_iff₀ (by norm_num : (0:ℚ) < 5)]
    linarith
  have hfl : jsRound (rawAmericanOdds p / 5) < -19 := by
    rw [jsRound]
    exact Int.floor_lt.mpr (by push_cast; linarith)
  omega

lemma jsRound_raw_ge {p : ℚ} (h0 : 0 < p) (hp : p ≤ 0.5) :
    20 ≤ jsRound (rawAmericanOdds p / 5) := by
  have hraw := rawAmericanOdds_ge h0 hp
  have h5 : (20:ℚ) ≤ rawAmericanOdds p / 5 := by
    rw [le_div_iff₀ (by norm_num : (0:ℚ) < 5)]
    linarith
  rw [jsRound]
  exact Int.le_floor.mpr (by push_cast; linarith)

lemma ok_pos_side {p : ℚ} (h0 : 0 < p) (hp : p ≤ 0.5) :
    ∃ n : ℤ, 20 ≤ n ∧ impliedProbabilityToAmerican p = Except.ok (5 * (n : ℚ)) := by
  refine ⟨jsRound (rawAmericanOdds p / 5), jsRound_raw_ge h0 hp, ?_⟩
  rw [impliedProbabilityToAmerican_ok h0 (by linarith)]
  congr 1
  push_cast
  ring

lemma ok_neg_side {p : ℚ} (hp : 0.5 < p) (h1 : p < 1) :
    ∃ n : ℤ, n ≤ -20 ∧ impliedProbabilityToAmerican p = Except.ok (5 * (n : ℚ)) := by
  refine ⟨jsRound (rawAmericanOdds p / 5), jsRound_raw_le hp h1, ?_⟩
  rw [impliedProbabilityToAmerican_ok (by linarith) h1]
  congr 1
  push_cast
  ring

/-- Claim C4: `impliedProbabilityToAmerican` fails exactly on `p ≤ 0` or
`p ≥ 1`; on the open interval it returns the branch formula rounded to a
multiple of 5 that is within 5/2 of the raw price — a negative price at
most -100 for a favorite (`p > 0.5`), a positive price at least 100 for an
underdog. -/
theorem impliedProbabilityToAmerican_spec : ∀ p : ℚ,
    ((∃ e, impliedProbabilityToAmerican p = Except.error e) ↔ p ≤ 0 ∨ 1 ≤ p) ∧
    (0 < p → p < 1 →
      ∃ n : ℤ, n = jsRound (rawAmericanOdds p / 5) ∧
        impliedProbabilityToAmerican p = Except.ok ((5 * n : ℤ) : ℚ) ∧
        |((5 * n : ℤ) : ℚ) - rawAmericanOdds p| ≤ 5 / 2 ∧
        (0.5 < p → ((5 * n : ℤ) : ℚ) ≤ -100) ∧
        (p ≤ 0.5 → 100 ≤ ((5 * n : ℤ) : ℚ))) := by
  intro p
  constructor
  · constructor
    · rintro ⟨e, he⟩
      by_contra hc
      push_neg at hc
      rw [impliedProbabilityToAmerican_ok hc.1 hc.2] at he
      simp at he
    · intro h
      exact ⟨_, by unfold impliedProbabilityToAmerican; rw [if_pos h]⟩
  · intro h0 h1
    refine ⟨jsRound (rawAmericanOdds p / 5), rfl,
      impliedProbabilityToAmerican_ok h0 h1, round5_abs_le _, ?_, ?_⟩
    · intro hp
      have hn := jsRound_raw_le hp h1
      have h5 : (5 * jsRound (rawAmericanOdds p / 5) : ℤ) ≤ -100 := by omega
      exact_mod_cast h5
    · intro hp
      have hn := jsRound_raw_ge h0 hp
      have h5 : (100:ℤ) ≤ 5 * jsRound (rawAmericanOdds p / 5) := by omega
      exact_mod_cast h5

/-- Claim C4 witness: the spec scenario `p = 0.6`, a favorite price. -/
theorem impliedProbabilityToAmerican_spec_witness :
    ((∃ e, impliedProbabilityToAmerican 0.6 = Except.error e) ↔
      (0.6:ℚ) ≤ 0 ∨ 1 ≤ (0.6:ℚ)) ∧
    (0 < (0.6:ℚ) → (0.6:ℚ) < 1 →
      ∃ n : ℤ, n = jsRound (rawAmericanOdds 0.6 / 5) ∧
        impliedProbabilityToAmerican 0.6 = Except.ok ((5 * n : ℤ) : ℚ) ∧
        |((5 * n : ℤ) : ℚ) - rawAmericanOdds 0.6| ≤ 5 / 2 ∧
        (0.5 < (0.6:ℚ) → ((5 * n : ℤ) : ℚ) ≤ -100) ∧
        ((0.6:ℚ) ≤ 0.5 → 100 ≤ ((5 * n : ℤ) : ℚ))) :=
  impliedProbabilityToAmerican_spec 0.6

/-- The round trip of the spec read from the odds side: convert American
odds to an implied probability and back. -/
def roundTripOdds (o : ℚ) : Except String ℚ :=
  impliedProbabilityToAmerican (americanToImpliedProbability o)

lemma jsRound_intCast (n : ℤ) : jsRound (n : ℚ) = n := by
  rw [jsRound, add_comm, Int.floor_add_int]
  norm_num

lemma five_mul_div_five (x : ℚ) : 5 * x / 5 = x := by
  field_simp

lemma roundTripOdds_pos (n : ℤ) (hn : 20 ≤ n) :
    roundTripOdds (5 * (n : ℚ)) = Except.ok (5 * (n : ℚ)) := by
  have hn' : (20:ℚ) ≤ (n:ℚ) := by exact_mod_cast hn
  have hpos : (0:ℚ) < 5 * n := by linarith
  have hden : (0:ℚ) < 5 * n + 100 := by linarith
  have hprob : americanToImpliedProbability (5 * n) = 100 / (5 * (n:ℚ) + 100) := by
    unfold americanToImpliedProbability
    rw [if_pos hpos]
  have hp0 : 0 < 100 / (5 * (n:ℚ) + 100) := div_pos (by norm_num) hden
  have hp1 : 100 / (5 * (n:ℚ) + 100) ≤ 0.5 := by
    rw [div_le_iff₀ hden]
    linarith
  have hraw : rawAmericanOdds (100 / (5 * (n:ℚ) + 100)) = 5 * n := by
    rw [rawAmericanOdds, if_neg (not_lt.mpr hp1)]
    rw [div_eq_iff (by positivity : (100:ℚ) / (5 * (n:ℚ) + 100) ≠ 0)]
    field_simp
    ring
  unfold roundTripOdds
  rw [hprob, impliedProbabilityToAmerican_ok hp0 (lt_of_le_of_lt hp1 (by norm_num)),
    hraw, five_mul_div_five, jsRound_intCast]
  congr 1
  push_cast
  ring

lemma roundTripOdds_neg (n : ℤ) (hn : n ≤ -21) :
    roundTripOdds (5 * (n : ℚ)) = Except.ok (5 * (n : ℚ)) := by
  have hn' : (n:ℚ) ≤ -21 := by exact_mod_cast hn
  have hneg : 5 * (n:ℚ) < 0 := by linarith
  have habs : |5 * (n:ℚ)| = -(5 * (n:ℚ)) := abs_of_neg hneg
  have hden : (0:ℚ) < -(5 * (n:ℚ)) + 100 := by linarith
  have hprob : americanToImpliedProbability (5 * n) =
      -(5 * (n:ℚ)) / (-(5 * (n:ℚ)) + 100) := by
    unfold americanToImpliedProbability
    rw [if_neg (not_lt.mpr hneg.le), habs]
  have hp0 : 0 < -(5 * (n:ℚ)) / (-(5 * (n:ℚ)) + 100) := div_pos (by linarith) hden
  have hphalf : 0.5 < -(5 * (n:ℚ)) / (-(5 * (n:ℚ)) + 100) := by
    rw [lt_div_iff₀ hden]
    linarith
  have hp1 : -(5 * (n:ℚ)) / (-(5 * (n:ℚ)) + 100) < 1 := by
    rw [div_lt_one hden]
    linarith
  have hraw : rawAmericanOdds (-(5 * (n:ℚ)) / (-(5 * (n:ℚ)) + 100)) = 5 * n := by
    rw [rawAmericanOdds, if_pos hphalf]
    rw [div_eq_iff]
    · field_simp
      ring
    · have h15 : 1 - -(5 * (n:ℚ)) / (-(5 * (n:ℚ)) + 100) =
          100 / (-(5 * (n:ℚ)) + 100) := by
        field_simp
      rw [h15]
      positivity
  unfold roundTripOdds
  rw [hprob, impliedProbabilityToAmerican_ok hp0 hp1, hraw, five_mul_div_five,
    jsRound_intCast]
  congr 1
  push_cast
  ring

lemma roundTripOdds_neg100 : roundTripOdds (-100) = Except.ok 100 := by
  norm_num [roundTripOdds, americanToImpliedProbability, impliedProbabilityToAmerican,
    rawAmericanOdds, jsRound]

lemma roundTripOdds_100 : roundTripOdds 100 = Except.ok 100 := by
  norm_num [roundTripOdds, americanToImpliedProbability, impliedProbabilityToAmerican,
    rawAmericanOdds, jsRound]

/-- Claim C6 counterexample: the valid probability 101/200 produces the
odds -100, whose own round trip produces +100, not -100 — the round trip
is not idempotent on the first produced odds. -/
theorem roundTrip_not_idempotent_at_neg100 :
    impliedProbabilityToAmerican (101/200) = Except.ok (-100) ∧
    roundTripOdds (-100) = Except.ok 100 ∧ (100 : ℚ) ≠ -100 := by
  refine ⟨?_, roundTripOdds_neg100, by norm_num⟩
  norm_num [impliedProbabilityToAmerican, rawAmericanOdds, jsRound]

/-- Claim C6 (amended): for every valid probability the produced odds `o`
satisfy `roundTrip(o) = o`, except when `o = -100` (raw favorite prices in
(-102.5, -100] round to -100): there the round trip returns +100. In all
cases the value obtained after one round trip is a fixed point, so the
round trip stabilizes after at most one extra application. -/
theorem roundTrip_stabilizes : ∀ p : ℚ, 0 < p → p < 1 →
    ∃ o o' : ℚ, impliedProbabilityToAmerican p = Except.ok o ∧
      roundTripOdds o = Except.ok o' ∧
      roundTripOdds o' = Except.ok o' ∧
      (o ≠ -100 → o' = o) := by
  intro p h0 h1
  by_cases hp : 0.5 < p
  · obtain ⟨n, hn, hok⟩ := ok_neg_side hp h1
    rcases eq_or_lt_of_le hn with heq | hlt
    · refine ⟨-100, 100, ?_, roundTripOdds_neg100, roundTripOdds_100,
        fun h => absurd rfl h⟩
      rw [hok, heq]
      norm_num
    · have hn21 : n ≤ -21 := by omega
      exact ⟨5 * n, 5 * n, hok, roundTripOdds_neg n hn21, roundTripOdds_neg n hn21,
        fun _ => rfl⟩
  · push_neg at hp
    obtain ⟨n, hn, hok⟩ := ok_pos_side h0 hp
    exact ⟨5 * n, 5 * n, hok, roundTripOdds_pos n hn, roundTripOdds_pos n hn,
      fun _ => rfl⟩

/-- Claim C6 witness: the round trip from `p = 1/4`. -/
theorem roundTrip_stabilizes_witness :
    ∃ o o' : ℚ, impliedProbabilityToAmerican (1/4) = Except.ok o ∧
      roundTripOdds o = Except.ok o' ∧
      roundTripOdds o' = Except.ok o' ∧
      (o ≠ -100 → o' = o) :=
  roundTrip_stabilizes (1/4) (by norm_num) (by norm_num)

/-- The result object built by `oddsService.js`, `findBestValue`:
`{ type, typeName, edge, valueType }`. -/
structure BestValue where
  type : String
  typeName : Option String
  edge : ℚ
  valueType : String
deriving DecidableEq, Repr

/-- The `typeNames` lookup object inside `findBestValue`; an unknown key
reads as `undefined`, modelled by `none`. -/
def typeNames (t : String) : Option String :=
  if t = "home" then some "Home Moneyline"
  else if t = "away" then some "Away Moneyline"
  else if t = "over" then some "Over Total"
  else if t = "under" then some "Under Total"
  else none

/-- The comparator `(a, b) => b[1] - a[1]` of `findBestValue`: it places `a`
before `b` when the edge of `a` is at least the edge of `b`. -/
def edgeGe (a b : String × ℚ) : Prop := b.2 ≤ a.2

instance : DecidableRel edgeGe := fun a b => inferInstanceAs (Decidable (b.2 ≤ a.2))

instance : IsTotal (String × ℚ) edgeGe := ⟨fun a b => le_total b.2 a.2⟩

instance : IsTrans (String × ℚ) edgeGe := ⟨fun _ _ _ h1 h2 => le_trans h2 h1⟩

/-- `oddsService.js`, `findBestValue`: `Object.entries(edges)` lists the
entries in insertion order; `values.sort((a, b) => b[1] - a[1])` is a
stable descending sort (JavaScript `Array.prototype.sort` is stable),
modelled by a stable insertion sort; `values[0]` is the best entry; `null`
when `bestEdge <= 0.02`. -/
def findBestValue (edges : List (String × ℚ)) : Option BestValue :=
  match List.insertionSort edgeGe edges with
  | [] => none
  | (bestType, bestEdge) :: _ =>
    if bestEdge ≤ 0.02 then none
    else some { type := bestType, typeName := typeNames bestType,
                edge := bestEdge, valueType := determineValueType bestEdge }

/-- The entry the claim describes: the first entry of the list attaining
the maximum edge (first-seen wins on ties). -/
def firstMax : List (String × ℚ) → Option (String × ℚ)
  | [] => none
  | x :: xs =>
    some (match firstMax xs with
          | none => x
          | some m => if m.2 ≤ x.2 then x else m)

lemma firstMax_eq_none_iff (l : List (String × ℚ)) : firstMax l = none ↔ l = [] := by
  cases l <;> simp [firstMax]

lemma head_orderedInsert (x : String × ℚ) (l : List (String × ℚ)) :
    (List.orderedInsert edgeGe x l).head? =
      some (match l.head? with
            | none => x
            | some y => if edgeGe x y then x else y) := by
  cases l with
  | nil => rfl
  | cons y ys =>
    by_cases h : edgeGe x y
    · simp [List.orderedInsert, if_pos h, h]
    · simp [List.orderedInsert, if_neg h, h]

lemma head_insertionSort (l : List (String × ℚ)) :
    (List.insertionSort edgeGe l).head? = firstMax l := by
  induction l with
  | nil => rfl
  | cons x xs ih =>
    rw [List.insertionSort, head_orderedInsert, ih]
    cases hxs : firstMax xs with
    | none => simp [firstMax, hxs]
    | some m =>
      simp only [firstMax, hxs]
      congr 1

lemma firstMax_is_first_max : ∀ {l : List (String × ℚ)} {m : String × ℚ},
    firstMax l = some m →
    m ∈ l ∧ (∀ p ∈ l, p.2 ≤ m.2) ∧
      ∃ l₁ l₂, l = l₁ ++ m :: l₂ ∧ ∀ p ∈ l₁, p.2 < m.2 := by
  intro l
  induction l with
  | nil => intro m h; simp [firstMax] at h
  | cons x xs ih =>
    intro m h
    rw [firstMax] at h
    cases hxs : firstMax xs with
    | none =>
      have hnil : xs = [] := (firstMax_eq_none_iff xs).mp hxs
      subst hnil
      rw [hxs] at h
      simp at h
      subst h
      exact ⟨by simp, by simp, [], [], by simp, by simp⟩
    | some m' =>
      rw [hxs] at h
      simp only [Option.some.injEq] at h
      obtain ⟨hm'1, hm'2, l₁, l₂, hsplit, hlt⟩ := ih hxs
      by_cases hc : m'.2 ≤ x.2
      · rw [if_pos hc] at h
        subst h
        refine ⟨by simp, ?_, [], xs, by simp, by simp⟩
        intro p hp
        rcases List.mem_cons.mp hp with rfl | hp
        · exact le_refl _
        · exact (hm'2 p hp).trans hc
      · rw [if_neg hc] at h
        subst h
        push_neg at hc
        refine ⟨List.mem_cons_of_mem _ hm'1, ?_, x :: l₁, l₂, by rw [hsplit]; rfl, ?_⟩
        · intro p hp
          rcases List.mem_cons.mp hp with rfl | hp
          · exact hc.le
          · exact hm'2 p hp
        · intro p hp
          rcases List.mem_cons.mp hp with rfl | hp
          · exact hc
          · exact hlt p hp

/-- Claim C3: for a non-empty edge mapping, `findBestValue` looks at the
first entry attaining the maximum edge (first-seen wins on ties thanks to
sort stability), returns `none` exactly when that maximum is ≤ 0.02 and
otherwise that entry together with its edge and rating; in particular the
spec example returns `home` with edge 0.07 and rating `strong_value`. -/
theorem findBestValue_spec :
    (∀ (l : List (String × ℚ)) (m : String × ℚ), firstMax l = some m →
      (findBestValue l = none ↔ m.2 ≤ 0.02) ∧
      (0.02 < m.2 → findBestValue l =
        some { type := m.1, typeName := typeNames m.1, edge := m.2,
               valueType := determineValueType m.2 }) ∧
      m ∈ l ∧ (∀ p ∈ l, p.2 ≤ m.2) ∧
      ∃ l₁ l₂, l = l₁ ++ m :: l₂ ∧ ∀ p ∈ l₁, p.2 < m.2) ∧
    findBestValue [("home", 0.07), ("away", -0.01), ("over", 0.03), ("under", -0.03)] =
      some { type := "home", typeName := some "Home Moneyline", edge := 0.07,
             valueType := "strong_value" } := by
  constructor
  · intro l m hm
    obtain ⟨mt, me⟩ := m
    have hhead : (List.insertionSort edgeGe l).head? = some (mt, me) := by
      rw [head_insertionSort, hm]
    obtain ⟨rest, hrest⟩ : ∃ rest, List.insertionSort edgeGe l = (mt, me) :: rest := by
      cases hs : List.insertionSort edgeGe l with
      | nil => rw [hs] at hhead; simp at hhead
      | cons a t =>
        rw [hs] at hhead
        simp only [List.head?_cons, Option.some.injEq] at hhead
        exact ⟨t, by rw [hhead]⟩
    have hfb : findBestValue l =
        if me ≤ 0.02 then none
        else some { type := mt, typeName := typeNames mt, edge := me,
                    valueType := determineValueType me } := by
      rw [findBestValue, hrest]
    refine ⟨?_, ?_, (firstMax_is_first_max hm).1, (firstMax_is_first_max hm).2.1,
      (firstMax_is_first_max hm).2.2⟩
    · rw [hfb]
      split_ifs with hc <;> simp [hc]
    · intro h
      rw [hfb, if_neg (not_le.mpr h)]
  · norm_num [findBestValue, List.insertionSort, List.orderedInsert, edgeGe,
      typeNames, determineValueType]

/-- Claim C3 witness: the one-entry mapping `home -> 0.07`. -/
theorem findBestValue_spec_witness :
    (findBestValue [("home", 0.07)] = none ↔ ((("home", 0.07) : String × ℚ)).2 ≤ 0.02) ∧
    (0.02 < ((("home", 0.07) : String × ℚ)).2 →
      findBestValue [("home", 0.07)] =
        some { type := "home", typeName := typeNames "home", edge := 0.07,
               valueType := determineValueType 0.07 }) ∧
    (("home", 0.07) : String × ℚ) ∈ [(("home", 0.07) : String × ℚ)] ∧
    (∀ p ∈ [(("home", 0.07) : String × ℚ)], p.2 ≤ ((("home", 0.07) : String × ℚ)).2) ∧
    ∃ l₁ l₂, [(("home", 0.07) : String × ℚ)] = l₁ ++ ("home", 0.07) :: l₂ ∧
      ∀ p ∈ l₁, p.2 < ((("home", 0.07) : String × ℚ)).2 :=
  findBestValue_spec.1 [("home", 0.07)] ("home", 0.07) rfl

/-- The prop-bet object pushed by `gameService.js`, `_generateMockPropBets`. -/
structure PropCandidate where
  playerName : String
  betType : String
  line : ℚ
  recommendation : String
  confidence : ℚ
  reasoning : String
deriving DecidableEq, Repr

/-- The comparator `(a, b) => b.confidence - a.confidence` of the ranker:
`a` comes before `b` when the confidence of `a` is at least that of `b`. -/
def confGe (a b : PropCandidate) : Prop := b.confidence ≤ a.confidence

instance : DecidableRel confGe :=
  fun a b => inferInstanceAs (Decidable (b.confidence ≤ a.confidence))

instance : IsTotal PropCandidate confGe := ⟨fun a b => le_total b.confidence a.confidence⟩

instance : IsTrans PropCandidate confGe := ⟨fun _ _ _ h1 h2 => le_trans h2 h1⟩

/-- `gameService.js` line 237, the ranking step of `_generateMockPropBets`:
`props.sort((a, b) => b.confidence - a.confidence)` — a stable descending
sort by confidence (JavaScript `Array.prototype.sort` is stable), modelled
by a stable insertion sort. -/
def sortByConfidenceDesc (props : List PropCandidate) : List PropCandidate :=
  List.insertionSort confGe props

lemma filter_orderedInsert (c : ℚ) (x : PropCandidate) (l : List PropCandidate) :
    (List.orderedInsert confGe x l).filter (fun y => decide (y.confidence = c)) =
      if x.confidence = c then
        x :: l.filter (fun y => decide (y.confidence = c))
      else l.filter (fun y => decide (y.confidence = c)) := by
  induction l with
  | nil =>
    simp only [List.orderedInsert, List.filter]
    split_ifs with h <;> simp [h]
  | cons y ys ih =>
    rw [List.orderedInsert]
    by_cases hxy : confGe x y
    · rw [if_pos hxy]
      simp only [List.filter_cons]
      split_ifs with h1 h2 h2 <;> simp_all
    · rw [if_neg hxy]
      have hlt : x.confidence < y.confidence := not_le.mp hxy
      by_cases hx : x.confidence = c
      · have hy : ¬ y.confidence = c := by
          rw [← hx]
          exact (ne_of_gt hlt)
        rw [if_pos hx]
        simp only [List.filter_cons, ih, if_pos hx]
        simp [hy]
      · rw [if_neg hx]
        simp only [List.filter_cons, ih, if_neg hx]

lemma filter_insertionSort (c : ℚ) (l : List PropCandidate) :
    (List.insertionSort confGe l).filter (fun y => decide (y.confidence = c)) =
      l.filter (fun y => decide (y.confidence = c)) := by
  induction l with
  | nil => rfl
  | cons x xs ih =>
    rw [List.insertionSort, filter_orderedInsert]
    by_cases hx : x.confidence = c
    · rw [if_pos hx, ih]
      simp [List.filter_cons, hx]
    · rw [if_neg hx, ih]
      simp [List.filter_cons, hx]

/-- Claim C9: the ranker returns the same candidates (a permutation),
sorted by confidence in descending order, and the sort is stable: for
every confidence value the subsequence of candidates carrying it is
unchanged; the spec examples follow, including two tied candidates at
confidence 0.70 keeping their original relative order. -/
theorem sortByConfidenceDesc_spec :
    (∀ l : List PropCandidate, List.Perm (sortByConfidenceDesc l) l) ∧
    (∀ l : List PropCandidate, (sortByConfidenceDesc l).Sorted confGe) ∧
    (∀ (l : List PropCandidate) (c : ℚ),
      (sortByConfidenceDesc l).filter (fun y => decide (y.confidence = c)) =
        l.filter (fun y => decide (y.confidence = c))) ∧
    (sortByConfidenceDesc
      [{ playerName := "Player 1", betType := "hits", line := 1.5,
         recommendation := "over", confidence := 0.55, reasoning := "r" },
       { playerName := "Player 2", betType := "hits", line := 1.5,
         recommendation := "over", confidence := 0.82, reasoning := "r" },
       { playerName := "Player 3", betType := "hits", line := 1.5,
         recommendation := "over", confidence := 0.70, reasoning := "r" }]).map
      PropCandidate.confidence = [0.82, 0.70, 0.55] ∧
    sortByConfidenceDesc
      [{ playerName := "Player 1", betType := "hits", line := 1.5,
         recommendation := "over", confidence := 0.55, reasoning := "r" },
       { playerName := "Player 2", betType := "hits", line := 1.5,
         recommendation := "over", confidence := 0.82, reasoning := "r" },
       { playerName := "Player 3", betType := "hits", line := 1.5,
         recommendation := "over", confidence := 0.70, reasoning := "r" },
       { playerName := "Player 4", betType := "hits", line := 1.5,
         recommendation := "over", confidence := 0.70, reasoning := "r" }] =
      [{ playerName := "Player 2", betType := "hits", line := 1.5,
         recommendation := "over", confidence := 0.82, reasoning := "r" },
       { playerName := "Player 3", betType := "hits", line := 1.5,
         recommendation := "over", confidence := 0.70, reasoning := "r" },
       { playerName := "Player 4", betType := "hits", line := 1.5,
         recommendation := "over", confidence := 0.70, reasoning := "r" },
       { playerName := "Player 1", betType := "hits", line := 1.5,
         recommendation := "over", confidence := 0.55, reasoning := "r" }] := by
  refine ⟨fun l => List.perm_insertionSort confGe l,
    fun l => List.sorted_insertionSort confGe l,
    fun l c => filter_insertionSort c l, ?_, ?_⟩ <;>
    norm_num [sortByConfidenceDesc, List.insertionSort, List.orderedInsert, confGe]

/-- The odds object consumed by `analyzeBettingValue` and `analyzeValue`:
`{ homeMoneyline, awayMoneyline, overOdds, underOdds }`. -/
structure MarketOdds where
  homeMoneyline : ℚ
  awayMoneyline : ℚ
  overOdds : ℚ
  underOdds : ℚ
deriving DecidableEq, Repr

/-- The assessment object returned by `oddsService.js`,
`analyzeBettingValue`. -/
structure ValueAssessment where
  homeValue : String
  awayValue : String
  overValue : String
  underValue : String
  bestValue : Option BestValue
deriving DecidableEq, Repr

/-- `oddsService.js`, `analyzeBettingValue`: returns `null` when either
argument is missing (`!marketOdds || !simulatedOdds`); otherwise converts
every price to a probability, computes per-outcome edges in insertion
order home, away, over, under, classifies them, and attaches the best
value via `findBestValue`. -/
def analyzeBettingValue : Option MarketOdds → Option MarketOdds → Option ValueAssessment
  | some marketOdds, some simulatedOdds =>
    let homeEdge := oddsToProb simulatedOdds.homeMoneyline - oddsToProb marketOdds.homeMoneyline
    let awayEdge := oddsToProb simulatedOdds.awayMoneyline - oddsToProb marketOdds.awayMoneyline
    let overEdge := oddsToProb simulatedOdds.overOdds - oddsToProb marketOdds.overOdds
    let underEdge := oddsToProb simulatedOdds.underOdds - oddsToProb marketOdds.underOdds
    some { homeValue := determineValueType homeEdge,
           awayValue := determineValueType awayEdge,
           overValue := determineValueType overEdge,
           underValue := determineValueType underEdge,
           bestValue := findBestValue
             [("home", homeEdge), ("away", awayEdge),
              ("over", overEdge), ("under", underEdge)] }
  | _, _ => none

/-- The simulation object consumed by `simulationService.js`,
`analyzeValue`; only its `bettingInsights` prices are read. -/
structure Simulation where
  bettingInsights : MarketOdds
deriving DecidableEq, Repr

/-- One entry of the object returned by `analyzeValue`:
`{ edge, rating }`. -/
structure OutcomeValue where
  edge : ℚ
  rating : String
deriving DecidableEq, Repr

/-- The object returned by `simulationService.js`, `analyzeValue`. -/
structure SimValueAnalysis where
  home : OutcomeValue
  away : OutcomeValue
  over : OutcomeValue
  under : OutcomeValue
deriving DecidableEq, Repr

/-- `simulationService.js`, `_calculateEdge`: simulated probability minus
market probability. -/
def calculateEdge (marketOdds simulatedOdds : ℚ) : ℚ :=
  simOddsToProb simulatedOdds - simOddsToProb marketOdds

/-- `simulationService.js`, `analyzeValue`: returns `null` when either
argument is missing (`!simulation || !marketOdds`); otherwise rates the
edge of each of the four outcomes. -/
def analyzeValue : Option Simulation → Option MarketOdds → Option SimValueAnalysis
  | some simulation, some marketOdds =>
    let simulatedOdds := simulation.bettingInsights
    let homeEdge := calculateEdge marketOdds.homeMoneyline simulatedOdds.homeMoneyline
    let awayEdge := calculateEdge marketOdds.awayMoneyline simulatedOdds.awayMoneyline
    let overEdge := calculateEdge marketOdds.overOdds simulatedOdds.overOdds
    let underEdge := calculateEdge marketOdds.underOdds simulatedOdds.underOdds
    some { home := { edge := homeEdge, rating := getValueRating homeEdge },
           away := { edge := awayEdge, rating := getValueRating awayEdge },
           over := { edge := overEdge, rating := getValueRating overEdge },
           under := { edge := underEdge, rating := getValueRating underEdge } }
  | _, _ => none

/-- Claim C10: both value-analysis entry points return `null` — not an
error and not a partial result — exactly when one of their two inputs is
missing; with both inputs present they always return a full assessment. -/
theorem analyze_none_iff_missing_input :
    (∀ (m s : Option MarketOdds),
      analyzeBettingValue m s = none ↔ m = none ∨ s = none) ∧
    (∀ (sim : Option Simulation) (m : Option MarketOdds),
      analyzeValue sim m = none ↔ sim = none ∨ m = none) := by
  constructor
  · rintro (_ | m) (_ | s) <;> simp [analyzeBettingValue]
  · rintro (_ | sim) (_ | m) <;> simp [analyzeValue]

/-- IEEE-754 double values as JavaScript sees them, restricted to the
values the engine can produce: an exact finite number, the two infinities,
or NaN.  The rational 0 stands for IEEE +0, so a division by it takes the
sign of the numerator. -/
inductive JsNum where
  | num (q : ℚ)
  | inf
  | negInf
  | nan
deriving DecidableEq, Repr

/-- JavaScript strict order `x < y`: any comparison with NaN is false. -/
def JsNum.lt : JsNum → JsNum → Bool
  | .num a, .num b => decide (a < b)
  | .num _, .inf => true
  | .negInf, .num _ => true
  | .negInf, .inf => true
  | _, _ => false

/-- JavaScript addition on the modelled values. -/
def JsNum.add : JsNum → JsNum → JsNum
  | .num a, .num b => .num (a + b)
  | .num _, .inf => .inf
  | .num _, .negInf => .negInf
  | .inf, .num _ => .inf
  | .inf, .inf => .inf
  | .negInf, .num _ => .negInf
  | .negInf, .negInf => .negInf
  | _, _ => .nan

/-- JavaScript subtraction on the modelled values. -/
def JsNum.sub : JsNum → JsNum → JsNum
  | .num a, .num b => .num (a - b)
  | .num _, .inf => .negInf
  | .num _, .negInf => .inf
  | .inf, .num _ => .inf
  | .inf, .negInf => .inf
  | .negInf, .num _ => .negInf
  | .negInf, .inf => .negInf
  | _, _ => .nan

/-- JavaScript multiplication on the modelled values; zero times an
infinity is NaN. -/
def JsNum.mul : JsNum → JsNum → JsNum
  | .num a, .num b => .num (a * b)
  | .num a, .inf => if 0 < a then .inf else if a < 0 then .negInf else .nan
  | .num a, .negInf => if 0 < a then .negInf else if a < 0 then .inf else .nan
  | .inf, .num b => if 0 < b then .inf else if b < 0 then .negInf else .nan
  | .negInf, .num b => if 0 < b then .negInf else if b < 0 then .inf else .nan
  | .inf, .inf => .inf
  | .inf, .negInf => .negInf
  | .negInf, .inf => .negInf
  | .negInf, .negInf => .inf
  | _, _ => .nan

/-- JavaScript division on the modelled values; a finite number divided by
+0 gives a signed infinity (0/0 gives NaN), infinity over infinity gives
NaN. -/
def JsNum.div : JsNum → JsNum → JsNum
  | .num a, .num b =>
    if b = 0 then (if 0 < a then .inf else if a < 0 then .negInf else .nan)
    else .num (a / b)
  | .num _, .inf => .num 0
  | .num _, .negInf => .num 0
  | .inf, .num b => if 0 ≤ b then .inf else .negInf
  | .negInf, .num b => if 0 ≤ b then .negInf else .inf
  | _, _ => .nan

/-- JavaScript `Math.abs` on the modelled values. -/
def JsNum.abs : JsNum → JsNum
  | .num a => .num |a|
  | .inf => .inf
  | .negInf => .inf
  | .nan => .nan

/-- JavaScript `Math.max` on the modelled values: NaN if either argument
is NaN. -/
def JsNum.maxJs : JsNum → JsNum → JsNum
  | .nan, _ => .nan
  | _, .nan => .nan
  | .inf, _ => .inf
  | _, .inf => .inf
  | .negInf, y => y
  | x, .negInf => x
  | .num a, .num b => .num (max a b)

/-- True exactly on an actual (finite) number. -/
def JsNum.isFinite : JsNum → Bool
  | .num _ => true
  | _ => false

/-- `oddsUtils.js`, `americanToImpliedProbability`, replayed over IEEE
values. -/
def americanToImpliedProbabilityJs (americanOdds : JsNum) : JsNum :=
  if (JsNum.num 0).lt americanOdds then
    (JsNum.num 100).div (americanOdds.add (JsNum.num 100))
  else
    americanOdds.abs.div (americanOdds.abs.add (JsNum.num 100))

/-- `oddsUtils.js`, `americanToDecimalOdds`, replayed over IEEE values. -/
def americanToDecimalOddsJs (americanOdds : JsNum) : JsNum :=
  if (JsNum.num 0).lt americanOdds then
    (JsNum.num 1).add (americanOdds.div (JsNum.num 100))
  else
    (JsNum.num 1).add ((JsNum.num 100).div americanOdds.abs)

/-- `oddsUtils.js`, `calculateKellyStake`, replayed over IEEE values. -/
def calculateKellyStakeJs (probability americanOdds : JsNum) : JsNum :=
  let decimalOdds := americanToDecimalOddsJs americanOdds
  let q := (JsNum.num 1).sub probability
  let b := decimalOdds.sub (JsNum.num 1)
  let stake := ((b.mul probability).sub q).div b
  (JsNum.num 0).maxJs stake

lemma americanToDecimalOddsJs_num {q : ℚ} (hq : q ≠ 0) :
    americanToDecimalOddsJs (JsNum.num q) = JsNum.num (americanToDecimalOdds q) := by
  rcases lt_or_gt_of_ne hq with h | h
  · have habs : |q| ≠ 0 := abs_ne_zero.mpr hq
    simp [americanToDecimalOddsJs, americanToDecimalOdds, JsNum.lt, JsNum.abs,
      JsNum.div, JsNum.add, not_lt.mpr h.le, habs, not_lt_of_gt h]
  · simp [americanToDecimalOddsJs, americanToDecimalOdds, JsNum.lt, JsNum.div,
      JsNum.add, h]

/-- Claim C8 counterexample: at American odds 0 no error is raised:
the decimal conversion divides 100 by `Math.abs(0) = 0` and returns
Infinity, and the Kelly computation on that value returns NaN. -/
theorem zero_odds_returns_infinity_and_nan :
    americanToDecimalOddsJs (JsNum.num 0) = JsNum.inf ∧
    calculateKellyStakeJs (JsNum.num 0.5) (JsNum.num 0) = JsNum.nan := by
  constructor
  · rfl
  · norm_num [calculateKellyStakeJs, americanToDecimalOddsJs, JsNum.lt, JsNum.abs,
      JsNum.div, JsNum.add, JsNum.sub, JsNum.mul, JsNum.maxJs]

/-- Claim C8 (amended): on finite inputs every core operation returns a
finite number or fails, except at American odds 0, where the decimal
conversion returns Infinity and the Kelly stake returns NaN (see the
counterexample): probability conversion is finite for every finite input
(0 included), decimal conversion and Kelly staking are finite for every
nonzero odds, edge computation is finite for all finite inputs, and
`impliedProbabilityToAmerican` returns a rational on its whole valid
domain. -/
theorem core_operations_finite :
    (∀ q : ℚ, (americanToImpliedProbabilityJs (JsNum.num q)).isFinite = true) ∧
    (∀ q : ℚ, q ≠ 0 → (americanToDecimalOddsJs (JsNum.num q)).isFinite = true) ∧
    (∀ p q : ℚ, q ≠ 0 →
      (calculateKellyStakeJs (JsNum.num p) (JsNum.num q)).isFinite = true) ∧
    (∀ a b : ℚ,
      ((americanToImpliedProbabilityJs (JsNum.num a)).sub
        (americanToImpliedProbabilityJs (JsNum.num b))).isFinite = true) ∧
    (∀ p : ℚ, 0 < p → p < 1 → ∃ v : ℚ, impliedProbabilityToAmerican p = Except.ok v) := by
  have hprob : ∀ q : ℚ, ∃ v : ℚ,
      americanToImpliedProbabilityJs (JsNum.num q) = JsNum.num v := by
    intro q
    by_cases h : 0 < q
    · have hden : q + 100 ≠ 0 := by linarith
      exact ⟨100 / (q + 100), by
        simp [americanToImpliedProbabilityJs, JsNum.lt, JsNum.add, JsNum.div, h, hden]⟩
    · have hden : |q| + 100 ≠ 0 := by positivity
      exact ⟨|q| / (|q| + 100), by
        simp [americanToImpliedProbabilityJs, JsNum.lt, JsNum.abs, JsNum.add,
          JsNum.div, h, hden]⟩
  refine ⟨?_, ?_, ?_, ?_, ?_⟩
  · intro q
    obtain ⟨v, hv⟩ := hprob q
    rw [hv]
    rfl
  · intro q hq
    rw [americanToDecimalOddsJs_num hq]
    rfl
  · intro p q hq
    have hb : americanToDecimalOdds q - 1 ≠ 0 := (americanToDecimalOdds_sub_one_pos hq).ne'
    rw [calculateKellyStakeJs, americanToDecimalOddsJs_num hq]
    simp [JsNum.sub, JsNum.mul, JsNum.div, JsNum.maxJs, hb, JsNum.isFinite]
  · intro a b
    obtain ⟨v, hv⟩ := hprob a
    obtain ⟨w, hw⟩ := hprob b
    rw [hv, hw]
    rfl
  · intro p h0 h1
    exact ⟨_, impliedProbabilityToAmerican_ok h0 h1⟩

/-- Claim C8 witness: finiteness at concrete prices, including odds 0 for
the probability conversion. -/
theorem core_operations_finite_witness :
    (americanToImpliedProbabilityJs (JsNum.num 0)).isFinite = true ∧
    (americanToDecimalOddsJs (JsNum.num (-110))).isFinite = true ∧
    (calculateKellyStakeJs (JsNum.num 0.6) (JsNum.num (-150))).isFinite = true ∧
    ∃ v : ℚ, impliedProbabilityToAmerican (1/4) = Except.ok v :=
  ⟨core_operations_finite.1 0,
   core_operations_finite.2.1 (-110) (by norm_num),
   core_operations_finite.2.2.1 0.6 (-150) (by norm_num),
   core_operations_finite.2.2.2.2 (1/4) (by norm_num) (by norm_num)⟩
